import Mathlib

/-!
Tesh: the tokenizer (`src/tokens.c`) and the statement control flow.

A shallow embedding of `new_tokens`, `parse`, `add_token` and `clear_token`
of `src/tokens.c`, with the C library routines they call (`strtok`, `strdup`,
`calloc`, `realloc`, `free`) modelled after ISO C, followed by a model of
`command_runner`, whose body is not among the sources.

Conventions of the embedding.

* A character buffer is a `List Char`: the bytes of the allocation that come
  before its final terminating NUL. Reading at an index past the list reads
  that terminating NUL. The C string held in a buffer is the part before the
  first NUL (`cstr`).
* A pointer into the caller's line buffer is an index (`Nat`); a `char*` that
  may be `NULL` is an `Option Nat`.
* The `elements` array is a `List Cell` whose length is the allocated capacity
  in cells. Every array access is bounds checked: an access outside the
  capacity makes the operation return `none`.
* Allocation is assumed to succeed (`malloc`, `calloc`, `realloc` and `strdup`
  never return `NULL`), and the `size` counter is an unbounded natural number.
-/

namespace Tesh

/-! ## Memory model -/

/-- The NUL character that terminates a C string. -/
def NUL : Char := Char.ofNat 0

/-- One `char*` cell of the `elements` array. -/
inductive Cell where
  /-- the `NULL` pointer -/
  | null : Cell
  /-- a pointer to a live heap string, as returned by `strdup`, with its content -/
  | str (s : List Char) : Cell
  /-- an indeterminate value: storage that `realloc` added and nobody wrote yet,
  or a pointer whose string was passed to `free` -/
  | junk : Cell
  deriving DecidableEq, Repr

/-- Modelled from the spec: `tokens.h` is not among the sources; the structure
has the two fields `tokens.c` uses, the array `elements` of `char*` and the
count `size` ("an ordered, mutable list of owned strings, with an explicit
count; no fixed capacity"). -/
structure tokens where
  elements : List Cell
  size : Nat
  deriving DecidableEq, Repr

/-- The byte at index `i` of a buffer (`m[i]`); past the list it is the
terminating NUL. -/
def rd (m : List Char) (i : Nat) : Char := m.getD i NUL

/-- The C string held in a buffer: its characters up to the first NUL. -/
def cstr (m : List Char) : List Char := m.takeWhile (fun c => c != NUL)

/-- C library `calloc(n, sizeof(char*))`: `n` cells, all zero. -/
def calloc (n : Nat) : List Cell := List.replicate n Cell.null

/-- C library `realloc(a, n * sizeof(char*))`: the first `min n (old capacity)` cells are
kept, the cells added are indeterminate. -/
def realloc (a : List Cell) (n : Nat) : List Cell :=
  a.take n ++ List.replicate (n - a.length) Cell.junk

/-- The write `a[i] = c`, defined only inside the capacity of `a`. -/
def store (a : List Cell) (i : Nat) (c : Cell) : Option (List Cell) :=
  if i < a.length then some (a.set i c) else none

/-- Reading `a[i]`, defined only inside the capacity of `a`. -/
def load (a : List Cell) (i : Nat) : Option Cell := a.get? i

/-- C library `strdup(m + p)`: a fresh copy of the C string that starts at index `p`. -/
def strdup (m : List Char) (p : Nat) : List Char := cstr (m.drop p)

/-- C library `strspn(m + s, accept)`: the length of the longest prefix of the C string at
`s` made of characters of `accept`. -/
def strspn (m : List Char) (s : Nat) (accept : List Char) : Nat :=
  ((m.drop s).takeWhile (fun c => c != NUL && accept.contains c)).length

/-- C library `strcspn(m + s, reject)`: the length of the longest prefix of the C string at
`s` made of characters not in `reject`. -/
def strcspn (m : List Char) (s : Nat) (reject : List Char) : Nat :=
  ((m.drop s).takeWhile (fun c => c != NUL && !reject.contains c)).length

/-- C library `strtok(s, delim)` on the buffer `m`, with `olds` the
pointer the function keeps between calls. Returns the token pointer (or `NULL`),
the buffer after the call and the new saved pointer. A token that is followed by
a delimiter is terminated in place: the delimiter is overwritten with NUL. -/
def strtok (m : List Char) (olds : Nat) (s : Option Nat) (delim : List Char) :
    Option Nat × List Char × Nat :=
  let s0 := s.getD olds
  let s1 := s0 + strspn m s0 delim
  if rd m s1 = NUL then (none, m, s1)
  else
    let e := s1 + strcspn m s1 delim
    if rd m e = NUL then (some s1, m, e)
    else (some s1, m.set e NUL, e + 1)

/-! ## `src/tokens.c` -/

/-- Function `new_tokens`: `elements = calloc(1, sizeof(char*))`, `size = 0`. -/
def new_tokens : tokens := { elements := calloc 1, size := 0 }

/-- The delimiters `const char* limitations = " "` of `parse`: the space only. -/
def limitations : List Char := [' ']

/-- The `while (case_t != NULL)` loop of `parse`. `fuel` bounds the number of
iterations; `none` is an out-of-bounds write or exhausted fuel. -/
def parse_loop : Nat → List Char → Nat → Option Nat → tokens → Option (tokens × List Char)
  | 0, _, _, _, _ => none
  | _ + 1, m, _, none, t => some (t, m)
  | fuel + 1, m, olds, some case_t, t =>
    match store t.elements t.size (Cell.str (strdup m case_t)) with
    | none => none
    | some a =>
      let t1 : tokens := { elements := a, size := t.size + 1 }
      let t2 : tokens := { t1 with elements := realloc t1.elements (t1.size + 1) }
      let r := strtok m olds none limitations
      parse_loop fuel r.2.1 r.2.2 r.1 t2

/-- Function `parse(input)`: the token sequence, together with the caller's buffer as the
call leaves it. The position `strtok` saves between calls, which the call also
changes, is threaded through the loop and is not part of the result. -/
def parse (input : List Char) : Option (tokens × List Char) :=
  let r := strtok input 0 (some 0) limitations
  match parse_loop (input.length + 1) r.2.1 r.2.2 r.1 new_tokens with
  | none => none
  | some (t, m) =>
    match store t.elements t.size Cell.null with
    | none => none
    | some a => some ({ t with elements := a }, m)

/-- Function `add_token(theToken, input)`. -/
def add_token (theToken : tokens) (input : List Char) : Option tokens :=
  let a0 := realloc theToken.elements (theToken.size + 2)
  match store a0 theToken.size (Cell.str (strdup input 0)) with
  | none => none
  | some a1 =>
    match store a1 (theToken.size + 1) Cell.null with
    | none => none
    | some a2 => some { elements := a2, size := theToken.size + 1 }

/-- The loop `for (int i = 0; i < size; i++) free(elements[i]);` of
`clear_token`, from index `i` on, with `n = size - i` iterations left: each cell
is read and its string released, which leaves the pointer in the cell
indeterminate. -/
def free_loop : Nat → Nat → List Cell → Option (List Cell)
  | 0, _, a => some a
  | n + 1, i, a =>
    match load a i with
    | none => none
    | some _ => free_loop n (i + 1) (a.set i Cell.junk)

/-- Function `clear_token(theToken)`. -/
def clear_token (theToken : tokens) : Option tokens :=
  match free_loop theToken.size 0 theToken.elements with
  | none => none
  | some a0 =>
    let a1 := realloc a0 1
    match store a1 0 Cell.null with
    | none => none
    | some a2 => some { elements := a2, size := 0 }

/-! ## Auxiliary definitions used in the proofs -/

/-- A run of `j` space characters. -/
def spaces (j : Nat) : List Char := List.replicate j ' '

/-- Reference splitter on a C string: the maximal runs of characters other than
the space, left to right; `cur` is the run being read. -/
def wordsAux : List Char → List Char → List (List Char)
  | [], cur => if cur = [] then [] else [cur]
  | c :: cs, cur =>
    if c = ' ' then (if cur = [] then wordsAux cs [] else cur :: wordsAux cs [])
    else wordsAux cs (cur ++ [c])

/-- The space-separated words of a C string. -/
def words (l : List Char) : List (List Char) := wordsAux l []

/-- The buffer a tokenizing pass leaves behind: inside the C string, each space
that directly follows a character other than a space is overwritten with NUL;
`prev` tells whether the previous character belongs to a token. -/
def mark : Bool → List Char → List Char
  | _, [] => []
  | prev, c :: cs =>
    if c = NUL then c :: cs
    else if c = ' ' then (if prev then NUL else ' ') :: mark false cs
    else c :: mark true cs

/-! ## Observations on token sequences and series of calls -/

/-- The sequence `s` holds exactly the strings `ts`: its count is their number
and the cells `0 .. size-1` point to them, in order. -/
def Holds (s : tokens) (ts : List (List Char)) : Prop :=
  s.size = ts.length ∧ s.elements.take s.size = ts.map Cell.str

/-- The `elements` array is a `NULL`-terminated argument vector of exactly `size`
arguments: the cells below `size` are strings, the cell at `size` is `NULL`. -/
def argv_ok (s : tokens) : Prop :=
  (∀ i, i < s.size → ∃ w, s.elements.get? i = some (Cell.str w)) ∧
    s.elements.get? s.size = some Cell.null

/-- The allocated capacity covers the tokens and the sentinel. -/
def cap_ok (s : tokens) : Prop := s.size + 1 ≤ s.elements.length

/-- A call a client makes on an existing token sequence. -/
inductive Call where
  | add_token (input : List Char) : Call
  | clear_token : Call
  deriving DecidableEq, Repr

/-- One call. -/
def call (s : tokens) : Call → Option tokens
  | Call.add_token input => add_token s input
  | Call.clear_token => clear_token s

/-- A finite series of calls, in order; `none` as soon as one call is undefined. -/
def run_calls (s : tokens) : List Call → Option tokens
  | [] => some s
  | c :: cs =>
    match call s c with
    | none => none
    | some s1 => run_calls s1 cs

/-- The horizontal tab. -/
def TAB : Char := Char.ofNat 9

/-- The line feed. -/
def LF : Char := Char.ofNat 10

/-- The carriage return. -/
def CR : Char := Char.ofNat 13

/-- The whitespace characters: space, tab, newline, carriage return. -/
def whitespace : List Char := [' ', TAB, LF, CR]

/-- A C string: no character of it is NUL. -/
def IsCString (l : List Char) : Prop := NUL ∉ l

/-- The characters a token is made of: neither NUL nor the space. -/
def TokChars (tok : List Char) : Prop := ∀ c ∈ tok, c ≠ ' ' ∧ c ≠ NUL

instance (s : tokens) (ts : List (List Char)) : Decidable (Holds s ts) := by
  unfold Holds; infer_instance

instance (s : tokens) : Decidable (cap_ok s) := by
  unfold cap_ok; infer_instance

instance (l : List Char) : Decidable (IsCString l) := by
  unfold IsCString; infer_instance

instance (tok : List Char) : Decidable (TokChars tok) := by
  unfold TokChars; infer_instance

/-- Words written one after the other, each word but the last followed by a run
of `g + 1` spaces, where `g` is the number paired with the word (the number
paired with the last word is not used). -/
def joinWords : List (List Char × Nat) → List Char
  | [] => []
  | (w, g) :: rest =>
    match rest with
    | [] => w
    | _ :: _ => w ++ spaces (g + 1) ++ joinWords rest

/-! ## The statement control flow of `command_runner` -/

/-- Modelled from the spec: the control-flow operators that separate statements
(`;`, `&&`, `||`); the body of `command_runner` and its operator table are not
among the sources, only its declaration in `command_runner.h`. -/
inductive Operator where
  | SEQUENCE : Operator
  | AND : Operator
  | OR : Operator
  deriving DecidableEq, Repr

/-- Modelled from the spec: a statement, "one pipeline plus the control-flow
operator that follows it"; `none` when the input ends after the pipeline. -/
structure Statement (α : Type) where
  pipeline : α
  follow : Option Operator

/-- Modelled from the spec: step 5 of the execution algorithm, "if the statement
was followed by `AND`, proceed to the next statement only if status indicates
success (zero); if followed by `OR`, proceed only if status indicates failure
(non-zero); if followed by `SEQUENCE` or nothing, always proceed". -/
def proceeds : Option Operator → Int → Bool
  | some Operator.AND, status => status == 0
  | some Operator.OR, status => status != 0
  | some Operator.SEQUENCE, _ => true
  | none, _ => true

/-- Modelled from the spec: the execution algorithm of `command_runner`
(section 4.3), whose body is not among the sources. `exec w p` stands for steps
1 to 4 on one statement (build the pipeline `p`, spawn, wait, release) in the
state `w` of the outside world and gives the new state and the status of the
last stage. `error` is the parameter of `command_runner.h`, "set to true if you
want to kill tesh on command status != 0" (step 6). Statements run in order; the
run stops at the first statement after which step 5 does not proceed or step 6
aborts. The result is the final state and the statements executed, in order, each
with its status. -/
def command_runner {σ α : Type} (exec : σ → α → σ × Int) (error : Bool) :
    σ → List (Statement α) → σ × List (α × Int)
  | w, [] => (w, [])
  | w, st :: rest =>
    let r := exec w st.pipeline
    if error && r.2 != 0 then (r.1, [(st.pipeline, r.2)])
    else if proceeds st.follow r.2 then
      let k := command_runner exec error r.1 rest
      (k.1, (st.pipeline, r.2) :: k.2)
    else (r.1, [(st.pipeline, r.2)])

/-- Modelled from the spec: "Final return value: the status of the last statement
executed (or the status that triggered a hard stop)"; zero when there is no
statement. -/
def returned_status {α : Type} (trace : List (α × Int)) : Int :=
  match trace.getLast? with
  | none => 0
  | some e => e.2

/-- The condition the short-circuit rule puts on running the statement after an
operator `op`, given the status of the statement before it. -/
def short_circuit (op : Operator) (status : Int) : Prop :=
  op = Operator.SEQUENCE ∨ (op = Operator.AND ∧ status = 0) ∨
    (op = Operator.OR ∧ status ≠ 0)

/-- The short-circuit rule as a property of one run of `command_runner`: for
every pair of consecutive statements `A op B` of which `A` was executed with
status `sA`, `B` is executed if and only if `short_circuit op sA`. -/
def ShortCircuitRule {σ α : Type} (exec : σ → α → σ × Int) (error : Bool) (w : σ)
    (stmts : List (Statement α)) : Prop :=
  ∀ (i : Nat) (A : α) (op : Operator) (B : Statement α) (sA : Int),
    stmts.get? i = some ⟨A, some op⟩ → stmts.get? (i + 1) = some B →
    (command_runner exec error w stmts).2.get? i = some (A, sA) →
    ((∃ sB, (command_runner exec error w stmts).2.get? (i + 1) = some (B.pipeline, sB))
      ↔ short_circuit op sA)

/-- Commands of the examples. -/
inductive Cmd where
  | cmd_false : Cmd
  | cmd_true : Cmd
  | cmd_echo_hi : Cmd
  deriving DecidableEq, Repr

/-- An outside world without state in which `false` ends with status 1 and the
other commands with status 0. -/
def exec_cmd (w : Unit) : Cmd → Unit × Int
  | Cmd.cmd_false => (w, 1)
  | Cmd.cmd_true => (w, 0)
  | Cmd.cmd_echo_hi => (w, 0)

/-! ## Lemmas on lists and buffers -/

theorem space_ne_NUL : ' ' ≠ NUL := by decide

theorem takeWhile_append_stop {α : Type} (p : α → Bool) (l1 l2 : List α)
    (h1 : ∀ c ∈ l1, p c = true) (h2 : l2 = [] ∨ ∃ c l, l2 = c :: l ∧ p c = false) :
    (l1 ++ l2).takeWhile p = l1 := by
  induction l1 with
  | nil =>
    rcases h2 with h | ⟨c, l, h, hc⟩
    · simp [h]
    · simp [h, List.takeWhile_cons, hc]
  | cons a l ih =>
    have ha : p a = true := h1 a (by simp)
    have ih2 := ih (fun c hc => h1 c (by simp [hc]))
    simp [List.takeWhile_cons, ha, ih2]

theorem rd_append (a b : List Char) (i : Nat) : rd (a ++ b) (a.length + i) = rd b i := by
  induction a with
  | nil => simp
  | cons x a ih =>
    have : (x :: a).length + i = (a.length + i) + 1 := by simp; omega
    simp only [List.cons_append, this]
    simpa [rd] using ih

theorem rd_append_len (a b : List Char) : rd (a ++ b) a.length = rd b 0 := by
  simpa using rd_append a b 0

theorem set_append_len {α : Type} (a : List α) (x y : α) (b : List α) :
    (a ++ x :: b).set a.length y = a ++ y :: b := by
  induction a with
  | nil => simp
  | cons z a ih => simp [ih]

theorem rd_zero_cases (r : List Char) (h : rd r 0 = NUL) :
    r = [] ∨ ∃ l, r = NUL :: l := by
  cases r with
  | nil => exact Or.inl rfl
  | cons c l =>
    right
    refine ⟨l, ?_⟩
    simp [rd] at h
    rw [h]

theorem length_spaces (j : Nat) : (spaces j).length = j := by simp [spaces]

theorem mem_spaces {j : Nat} {c : Char} (h : c ∈ spaces j) : c = ' ' := by
  simp [spaces] at h
  exact h.2

theorem pS_space : ((' ' : Char) != NUL && limitations.contains ' ') = true := by decide

theorem pS_false_of_ne {c : Char} (h : c ≠ ' ') :
    (c != NUL && limitations.contains c) = false := by
  simp [limitations, h]

theorem pT_true {c : Char} (h1 : c ≠ ' ') (h2 : c ≠ NUL) :
    (c != NUL && !limitations.contains c) = true := by
  simp [limitations, h1, h2]

theorem strspn_spaces (pre : List Char) (j : Nat) (r1 : List Char)
    (h : r1 = [] ∨ ∃ c l, r1 = c :: l ∧ c ≠ ' ') :
    strspn (pre ++ (spaces j ++ r1)) pre.length limitations = j := by
  unfold strspn
  rw [List.drop_left, takeWhile_append_stop]
  · exact length_spaces j
  · intro c hc
    rw [mem_spaces hc]
    exact pS_space
  · rcases h with h | ⟨c, l, h, hc⟩
    · exact Or.inl h
    · exact Or.inr ⟨c, l, h, pS_false_of_ne hc⟩

theorem strcspn_tok (pre tok r2 : List Char) (ht : TokChars tok)
    (h : r2 = [] ∨ ∃ c l, r2 = c :: l ∧ (c = ' ' ∨ c = NUL)) :
    strcspn (pre ++ (tok ++ r2)) pre.length limitations = tok.length := by
  unfold strcspn
  rw [List.drop_left, takeWhile_append_stop]
  · intro c hc
    exact pT_true (ht c hc).1 (ht c hc).2
  · rcases h with h | ⟨c, l, h, hc⟩
    · exact Or.inl h
    · refine Or.inr ⟨c, l, h, ?_⟩
      rcases hc with hc | hc
      · rw [hc]; decide
      · rw [hc]; decide

theorem strdup_tok (pre tok r2 : List Char) (ht : TokChars tok) (h : rd r2 0 = NUL) :
    strdup (pre ++ (tok ++ r2)) pre.length = tok := by
  unfold strdup cstr
  rw [List.drop_left, takeWhile_append_stop]
  · intro c hc
    simp [(ht c hc).2]
  · rcases rd_zero_cases r2 h with h | ⟨l, h⟩
    · exact Or.inl h
    · exact Or.inr ⟨NUL, l, h, by simp⟩

theorem rd_tok_head (tok r2 : List Char) (ht : TokChars tok) (hne : tok ≠ []) :
    rd (tok ++ r2) 0 ≠ NUL := by
  cases tok with
  | nil => exact absurd rfl hne
  | cons c l =>
    simp [rd]
    exact (ht c (by simp)).2

/-- Function `strtok` when only spaces are left before the end of the C string. -/
theorem strtok_none (pre : List Char) (j : Nat) (r1 : List Char) (h : rd r1 0 = NUL) :
    strtok (pre ++ (spaces j ++ r1)) pre.length none limitations
      = (none, pre ++ (spaces j ++ r1), pre.length + j) := by
  have hs : strspn (pre ++ (spaces j ++ r1)) pre.length limitations = j := by
    apply strspn_spaces
    rcases rd_zero_cases r1 h with h | ⟨l, h⟩
    · exact Or.inl h
    · exact Or.inr ⟨NUL, l, h, fun hh => space_ne_NUL hh.symm⟩
  have hr : rd (pre ++ (spaces j ++ r1)) (pre.length + j) = NUL := by
    rw [rd_append]
    have := rd_append (spaces j) r1 0
    rw [length_spaces] at this
    simpa [h] using this
  simp [strtok, hs, hr]

/-- Function `strtok` on a token that ends the C string. -/
theorem strtok_last (pre : List Char) (j : Nat) (tok r2 : List Char)
    (ht : TokChars tok) (hne : tok ≠ []) (h : rd r2 0 = NUL) :
    strtok (pre ++ (spaces j ++ (tok ++ r2))) pre.length none limitations
      = (some (pre.length + j), pre ++ (spaces j ++ (tok ++ r2)),
          pre.length + j + tok.length) := by
  have hs : strspn (pre ++ (spaces j ++ (tok ++ r2))) pre.length limitations = j := by
    apply strspn_spaces
    cases tok with
    | nil => exact absurd rfl hne
    | cons c l => exact Or.inr ⟨c, l ++ r2, by simp, (ht c (by simp)).1⟩
  have hpre : (pre ++ spaces j).length = pre.length + j := by simp [length_spaces]
  have hm : pre ++ (spaces j ++ (tok ++ r2)) = (pre ++ spaces j) ++ (tok ++ r2) := by simp
  have hr1 : rd (pre ++ (spaces j ++ (tok ++ r2))) (pre.length + j) ≠ NUL := by
    rw [hm, ← hpre, rd_append_len]
    exact rd_tok_head tok r2 ht hne
  have hc : strcspn (pre ++ (spaces j ++ (tok ++ r2))) (pre.length + j) limitations
      = tok.length := by
    rw [hm, ← hpre]
    apply strcspn_tok _ _ _ ht
    rcases rd_zero_cases r2 h with h | ⟨l, h⟩
    · exact Or.inl h
    · exact Or.inr ⟨NUL, l, h, Or.inr rfl⟩
  have hr2 : rd (pre ++ (spaces j ++ (tok ++ r2))) (pre.length + j + tok.length) = NUL := by
    have hm2 : pre ++ (spaces j ++ (tok ++ r2)) = (pre ++ spaces j ++ tok) ++ r2 := by simp
    have hl : (pre ++ spaces j ++ tok).length = pre.length + j + tok.length := by
      simp [length_spaces]; omega
    rw [hm2, ← hl, rd_append_len]
    exact h
  simp [strtok, hs, hr1, hc, hr2]

/-- Function `strtok` on a token that is followed by a space: the space becomes NUL. -/
theorem strtok_space (pre : List Char) (j : Nat) (tok r3 : List Char)
    (ht : TokChars tok) (hne : tok ≠ []) :
    strtok (pre ++ (spaces j ++ (tok ++ ' ' :: r3))) pre.length none limitations
      = (some (pre.length + j), pre ++ (spaces j ++ (tok ++ NUL :: r3)),
          pre.length + j + tok.length + 1) := by
  have hs : strspn (pre ++ (spaces j ++ (tok ++ ' ' :: r3))) pre.length limitations = j := by
    apply strspn_spaces
    cases tok with
    | nil => exact absurd rfl hne
    | cons c l => exact Or.inr ⟨c, l ++ ' ' :: r3, by simp, (ht c (by simp)).1⟩
  have hpre : (pre ++ spaces j).length = pre.length + j := by simp [length_spaces]
  have hm : pre ++ (spaces j ++ (tok ++ ' ' :: r3))
      = (pre ++ spaces j) ++ (tok ++ ' ' :: r3) := by simp
  have hr1 : rd (pre ++ (spaces j ++ (tok ++ ' ' :: r3))) (pre.length + j) ≠ NUL := by
    rw [hm, ← hpre, rd_append_len]
    exact rd_tok_head tok _ ht hne
  have hc : strcspn (pre ++ (spaces j ++ (tok ++ ' ' :: r3))) (pre.length + j) limitations
      = tok.length := by
    rw [hm, ← hpre]
    exact strcspn_tok _ _ _ ht (Or.inr ⟨' ', r3, rfl, Or.inl rfl⟩)
  have hm2 : pre ++ (spaces j ++ (tok ++ ' ' :: r3)) = (pre ++ spaces j ++ tok) ++ ' ' :: r3 := by
    simp
  have hl : (pre ++ spaces j ++ tok).length = pre.length + j + tok.length := by
    simp [length_spaces]; omega
  have hr2 : rd (pre ++ (spaces j ++ (tok ++ ' ' :: r3))) (pre.length + j + tok.length)
      ≠ NUL := by
    rw [hm2, ← hl, rd_append_len]
    simp [rd]
    exact space_ne_NUL
  have hset : (pre ++ (spaces j ++ (tok ++ ' ' :: r3))).set (pre.length + j + tok.length) NUL
      = pre ++ (spaces j ++ (tok ++ NUL :: r3)) := by
    rw [hm2, ← hl, set_append_len]
    simp
  simp only [strtok, Option.getD_none, hs, hr1, hc, hr2, if_false, hset]

/-! ## Lemmas on the reference splitter and on `mark` -/

theorem wordsAux_tok (tok : List Char) (ht : ∀ c ∈ tok, c ≠ ' ') (rest cur : List Char) :
    wordsAux (tok ++ rest) cur = wordsAux rest (cur ++ tok) := by
  induction tok generalizing cur with
  | nil => simp
  | cons c l ih =>
    have hc : c ≠ ' ' := ht c (by simp)
    simp only [List.cons_append, wordsAux, hc, if_false, List.append_eq]
    rw [ih (fun d hd => ht d (by simp [hd]))]
    simp

theorem words_spaces_append (j : Nat) (r : List Char) : words (spaces j ++ r) = words r := by
  induction j with
  | zero => simp [spaces]
  | succ n ih =>
    have : spaces (n + 1) ++ r = ' ' :: (spaces n ++ r) := by simp [spaces, List.replicate_succ]
    rw [this]
    simpa [words, wordsAux] using ih

theorem words_tok_end (tok : List Char) (ht : ∀ c ∈ tok, c ≠ ' ') (hne : tok ≠ []) :
    words tok = [tok] := by
  have := wordsAux_tok tok ht [] []
  simp only [List.append_nil, List.nil_append] at this
  unfold words
  rw [this]
  simp [wordsAux, hne]

theorem words_tok_space (tok : List Char) (ht : ∀ c ∈ tok, c ≠ ' ') (hne : tok ≠ [])
    (r : List Char) : words (tok ++ ' ' :: r) = tok :: words r := by
  have := wordsAux_tok tok ht (' ' :: r) []
  simp only [List.nil_append] at this
  unfold words
  rw [this]
  simp [wordsAux, hne]

theorem cstr_spaces_append (j : Nat) (r : List Char) : cstr (spaces j ++ r) = spaces j ++ cstr r := by
  unfold cstr
  rw [List.takeWhile_append_of_pos]
  intro c hc
  rw [mem_spaces hc]
  decide

theorem cstr_tok_append (tok : List Char) (ht : TokChars tok) (r : List Char) :
    cstr (tok ++ r) = tok ++ cstr r := by
  unfold cstr
  rw [List.takeWhile_append_of_pos]
  intro c hc
  simp [(ht c hc).2]

theorem cstr_of_rd_zero (r : List Char) (h : rd r 0 = NUL) : cstr r = [] := by
  rcases rd_zero_cases r h with h | ⟨l, h⟩
  · simp [h, cstr]
  · simp [h, cstr]

theorem cstr_space_cons (r : List Char) : cstr (' ' :: r) = ' ' :: cstr r := by
  have := cstr_spaces_append 1 r
  simpa [spaces] using this

theorem mark_of_rd_zero (b : Bool) (r : List Char) (h : rd r 0 = NUL) : mark b r = r := by
  rcases rd_zero_cases r h with h | ⟨l, h⟩
  · simp [h, mark]
  · simp [h, mark]

theorem mark_spaces_append (j : Nat) (r : List Char) :
    mark false (spaces j ++ r) = spaces j ++ mark false r := by
  induction j with
  | zero => simp [spaces]
  | succ n ih =>
    have : spaces (n + 1) ++ r = ' ' :: (spaces n ++ r) := by simp [spaces, List.replicate_succ]
    rw [this]
    have h2 : spaces (n + 1) ++ mark false r = ' ' :: (spaces n ++ mark false r) := by
      simp [spaces, List.replicate_succ]
    rw [h2]
    simp [mark, space_ne_NUL, ih]

theorem mark_tok_append (b : Bool) (tok : List Char) (ht : TokChars tok) (hne : tok ≠ [])
    (r : List Char) : mark b (tok ++ r) = tok ++ mark true r := by
  induction tok generalizing b with
  | nil => exact absurd rfl hne
  | cons c l ih =>
    have hc := ht c (by simp)
    simp only [List.cons_append, mark, hc.1, hc.2, if_false, List.append_eq]
    cases l with
    | nil => simp
    | cons d l2 =>
      rw [ih true (fun x hx => ht x (by simp [hx])) (by simp)]

theorem mark_true_space (r : List Char) : mark true (' ' :: r) = NUL :: mark false r := by
  simp [mark, space_ne_NUL]

/-! ## The loop of `parse` against the reference splitter -/

theorem tok_shape (r : List Char) :
    ∃ tok r2, r = tok ++ r2 ∧ TokChars tok ∧ (rd r2 0 = NUL ∨ ∃ r3, r2 = ' ' :: r3) := by
  induction r with
  | nil => exact ⟨[], [], rfl, by simp [TokChars], Or.inl rfl⟩
  | cons c l ih =>
    by_cases h1 : c = ' '
    · exact ⟨[], c :: l, rfl, by simp [TokChars], Or.inr ⟨l, by rw [h1]⟩⟩
    · by_cases h2 : c = NUL
      · exact ⟨[], c :: l, rfl, by simp [TokChars], Or.inl (by simp [rd, h2])⟩
      · obtain ⟨tok, r2, hr, ht, hcase⟩ := ih
        refine ⟨c :: tok, r2, by simp [hr], ?_, hcase⟩
        intro d hd
        rcases List.mem_cons.mp hd with hd | hd
        · rw [hd]; exact ⟨h1, h2⟩
        · exact ht d hd

theorem line_shape (r : List Char) :
    ∃ j r1, r = spaces j ++ r1 ∧
      (rd r1 0 = NUL ∨ ∃ tok r2, r1 = tok ++ r2 ∧ tok ≠ [] ∧ TokChars tok ∧
        (rd r2 0 = NUL ∨ ∃ r3, r2 = ' ' :: r3)) := by
  induction r with
  | nil => exact ⟨0, [], rfl, Or.inl rfl⟩
  | cons c l ih =>
    by_cases h1 : c = ' '
    · obtain ⟨j, r1, hr, hcase⟩ := ih
      refine ⟨j + 1, r1, ?_, hcase⟩
      rw [h1, hr]
      simp [spaces, List.replicate_succ]
    · by_cases h2 : c = NUL
      · exact ⟨0, c :: l, rfl, Or.inl (by simp [rd, h2])⟩
      · obtain ⟨tok, r2, hr, ht, hcase⟩ := tok_shape l
        refine ⟨0, c :: l, rfl, Or.inr ⟨c :: tok, r2, by simp [hr], by simp, ?_, hcase⟩⟩
        intro d hd
        rcases List.mem_cons.mp hd with hd | hd
        · rw [hd]; exact ⟨h1, h2⟩
        · exact ht d hd

theorem store_last (cells : List Cell) (x c : Cell) (n : Nat) (hn : cells.length = n) :
    store (cells ++ [x]) n c = some (cells ++ [c]) := by
  unfold store
  rw [← hn, set_append_len]
  simp

theorem realloc_grow (a : List Cell) (n : Nat) (hn : a.length + 1 = n) :
    realloc a n = a ++ [Cell.junk] := by
  unfold realloc
  rw [← hn]
  simp [List.take_of_length_le]

/-- One iteration of the loop of `parse` on a sequence holding `toks`. -/
theorem parse_loop_step (f : Nat) (m : List Char) (olds p : Nat) (toks : List (List Char))
    (x : Cell) :
    parse_loop (f + 1) m olds (some p) ⟨toks.map Cell.str ++ [x], toks.length⟩ =
      parse_loop f (strtok m olds none limitations).2.1 (strtok m olds none limitations).2.2
        (strtok m olds none limitations).1
        ⟨(toks ++ [strdup m p]).map Cell.str ++ [Cell.junk], (toks ++ [strdup m p]).length⟩ := by
  have h1 : store (toks.map Cell.str ++ [x]) toks.length (Cell.str (strdup m p))
      = some (toks.map Cell.str ++ [Cell.str (strdup m p)]) :=
    store_last _ _ _ _ (by simp)
  have h2 : realloc (toks.map Cell.str ++ [Cell.str (strdup m p)]) (toks.length + 1 + 1)
      = (toks.map Cell.str ++ [Cell.str (strdup m p)]) ++ [Cell.junk] :=
    realloc_grow _ _ (by simp)
  simp only [parse_loop, h1, h2]
  simp

/-- The loop of `parse`, entered after a call of `strtok` with the saved pointer
at the start of `r`, on a sequence that holds `toks`: it terminates, appends the
words of the C string in `r`, and leaves `mark false r` in the buffer. -/
theorem parse_loop_spec (n : Nat) :
    ∀ (r : List Char), r.length ≤ n →
    ∀ (pre : List Char) (toks : List (List Char)) (x : Cell) (fuel : Nat),
      r.length + 1 ≤ fuel →
      ∃ y, parse_loop fuel (strtok (pre ++ r) pre.length none limitations).2.1
          (strtok (pre ++ r) pre.length none limitations).2.2
          (strtok (pre ++ r) pre.length none limitations).1
          ⟨toks.map Cell.str ++ [x], toks.length⟩
        = some (⟨(toks ++ words (cstr r)).map Cell.str ++ [y],
                  (toks ++ words (cstr r)).length⟩, pre ++ mark false r) := by
  induction n with
  | zero =>
    intro r hr pre toks x fuel hf
    have hr0 : r = [] := List.length_eq_zero.mp (Nat.le_zero.mp hr)
    subst hr0
    obtain ⟨f, rfl⟩ : ∃ f, fuel = f + 1 := ⟨fuel - 1, by omega⟩
    have h := strtok_none pre 0 [] rfl
    simp only [spaces, List.replicate_zero, List.append_nil, Nat.add_zero] at h
    refine ⟨x, ?_⟩
    simp [h, parse_loop, cstr, words, wordsAux, mark]
  | succ n ih =>
    intro r hr pre toks x fuel hf
    obtain ⟨f, rfl⟩ : ∃ f, fuel = f + 1 := ⟨fuel - 1, by omega⟩
    obtain ⟨j, r1, hsh, hcase⟩ := line_shape r
    rcases hcase with h0 | ⟨tok, r2, hr1, hne, ht, hcase2⟩
    · -- only spaces are left
      subst hsh
      rw [strtok_none pre j r1 h0]
      refine ⟨x, ?_⟩
      have hw : words (cstr (spaces j ++ r1)) = [] := by
        rw [cstr_spaces_append, cstr_of_rd_zero r1 h0]
        have := words_spaces_append j []
        rw [this]
        rfl
      rw [hw, mark_spaces_append, mark_of_rd_zero false r1 h0]
      simp [parse_loop]
    · subst hr1
      subst hsh
      have hsp : ∀ c ∈ tok, c ≠ ' ' := fun c hc => (ht c hc).1
      have hlen : 0 < tok.length := List.length_pos.mpr hne
      have hpj : (pre ++ spaces j).length = pre.length + j := by simp [length_spaces]
      rcases hcase2 with h2 | ⟨r3, h3⟩
      · -- the token ends the C string
        rw [strtok_last pre j tok r2 ht hne h2]
        simp only []
        rw [parse_loop_step]
        have hd : strdup (pre ++ (spaces j ++ (tok ++ r2))) (pre.length + j) = tok := by
          have := strdup_tok (pre ++ spaces j) tok r2 ht h2
          rw [hpj] at this
          simpa using this
        rw [hd]
        have hm : pre ++ (spaces j ++ (tok ++ r2)) = (pre ++ spaces j ++ tok) ++ r2 := by simp
        have hl : (pre ++ spaces j ++ tok).length = pre.length + j + tok.length := by
          simp [length_spaces]; omega
        rw [hm, ← hl]
        have hr2 : r2.length ≤ n := by
          simp [length_spaces] at hr; omega
        have hf2 : r2.length + 1 ≤ f := by
          simp [length_spaces] at hf; omega
        obtain ⟨y, hy⟩ := ih r2 hr2 (pre ++ spaces j ++ tok) (toks ++ [tok]) Cell.junk f hf2
        refine ⟨y, ?_⟩
        rw [hy]
        have hw : words (cstr (spaces j ++ (tok ++ r2))) = tok :: words (cstr r2) := by
          rw [cstr_spaces_append, words_spaces_append, cstr_tok_append tok ht,
            cstr_of_rd_zero r2 h2, List.append_nil, words_tok_end tok hsp hne]
          simp [words, wordsAux]
        have hmk : mark false (spaces j ++ (tok ++ r2)) = spaces j ++ (tok ++ mark false r2) := by
          rw [mark_spaces_append, mark_tok_append false tok ht hne, mark_of_rd_zero true r2 h2,
            mark_of_rd_zero false r2 h2]
        rw [hw, hmk]
        simp
      · -- the token is followed by a space
        subst h3
        rw [strtok_space pre j tok r3 ht hne]
        simp only []
        rw [parse_loop_step]
        have hd : strdup (pre ++ (spaces j ++ (tok ++ NUL :: r3))) (pre.length + j) = tok := by
          have := strdup_tok (pre ++ spaces j) tok (NUL :: r3) ht (by simp [rd])
          rw [hpj] at this
          simpa using this
        rw [hd]
        have hm : pre ++ (spaces j ++ (tok ++ NUL :: r3))
            = (pre ++ spaces j ++ tok ++ [NUL]) ++ r3 := by simp
        have hl : (pre ++ spaces j ++ tok ++ [NUL]).length
            = pre.length + j + tok.length + 1 := by
          simp [length_spaces]; omega
        rw [hm, ← hl]
        have hr2 : r3.length ≤ n := by
          simp [length_spaces] at hr; omega
        have hf2 : r3.length + 1 ≤ f := by
          simp [length_spaces] at hf; omega
        obtain ⟨y, hy⟩ :=
          ih r3 hr2 (pre ++ spaces j ++ tok ++ [NUL]) (toks ++ [tok]) Cell.junk f hf2
        refine ⟨y, ?_⟩
        rw [hy]
        have hw : words (cstr (spaces j ++ (tok ++ ' ' :: r3))) = tok :: words (cstr r3) := by
          rw [cstr_spaces_append, words_spaces_append, cstr_tok_append tok ht,
            cstr_space_cons, words_tok_space tok hsp hne]
        have hmk : mark false (spaces j ++ (tok ++ ' ' :: r3))
            = spaces j ++ (tok ++ NUL :: mark false r3) := by
          rw [mark_spaces_append, mark_tok_append false tok ht hne, mark_true_space]
        rw [hw, hmk]
        simp

/-- What `parse` computes: it always returns, the sequence holds the words of the
C string of the line followed by the `NULL` sentinel, and the buffer is left as
`mark false` describes. -/
theorem parse_eq (input : List Char) :
    parse input = some (⟨(words (cstr input)).map Cell.str ++ [Cell.null],
      (words (cstr input)).length⟩, mark false input) := by
  obtain ⟨y, hy⟩ := parse_loop_spec input.length input (le_refl _) [] [] Cell.null
    (input.length + 1) (le_refl _)
  have h0 : strtok input 0 (some 0) limitations = strtok input 0 none limitations := rfl
  unfold parse
  simp only [h0, new_tokens, calloc]
  simp only [List.length_nil, List.map_nil, List.nil_append] at hy
  have hrep : List.replicate 1 Cell.null = [Cell.null] := rfl
  rw [hrep, hy]
  simp only []
  rw [store_last _ _ _ _ (by simp)]

/-! ## `add_token` and `clear_token` -/

theorem realloc_two (n : Nat) : ∀ (a : List Cell), n ≤ a.length →
    ∃ x y, realloc a (n + 2) = a.take n ++ [x, y] := by
  induction n with
  | zero =>
    intro a _
    match a with
    | [] => exact ⟨Cell.junk, Cell.junk, rfl⟩
    | [x] => exact ⟨x, Cell.junk, rfl⟩
    | x :: y :: l => exact ⟨x, y, by simp [realloc]⟩
  | succ k ih =>
    intro a ha
    match a, ha with
    | h :: tl, ha =>
      obtain ⟨x, y, hxy⟩ := ih tl (by simpa using ha)
      refine ⟨x, y, ?_⟩
      have : realloc (h :: tl) (k + 1 + 2) = h :: realloc tl (k + 2) := by
        simp [realloc]
      rw [this, hxy]
      simp

/-- Function `add_token` on a sequence whose count is within its capacity: the cells below
`size` are kept, the copy of the C string of `input` and the sentinel follow. -/
theorem add_token_eq (s : tokens) (input : List Char) (h : s.size ≤ s.elements.length) :
    add_token s input
      = some ⟨s.elements.take s.size ++ [Cell.str (cstr input), Cell.null], s.size + 1⟩ := by
  obtain ⟨x, y, hxy⟩ := realloc_two s.size s.elements h
  have hl : (s.elements.take s.size).length = s.size := by simp [h]
  have h1 : store (s.elements.take s.size ++ [x, y]) s.size (Cell.str (cstr input))
      = some (s.elements.take s.size ++ [Cell.str (cstr input), y]) := by
    unfold store
    have e := set_append_len (s.elements.take s.size) x (Cell.str (cstr input)) [y]
    rw [hl] at e
    rw [e]
    simp [hl]
  have h2 : store (s.elements.take s.size ++ [Cell.str (cstr input), y]) (s.size + 1) Cell.null
      = some (s.elements.take s.size ++ [Cell.str (cstr input), Cell.null]) := by
    have e := store_last (s.elements.take s.size ++ [Cell.str (cstr input)]) y Cell.null
      (s.size + 1) (by simp [hl])
    simpa using e
  have hd : strdup input 0 = cstr input := by simp [strdup]
  simp only [add_token, hxy, hd, h1, h2]

theorem free_loop_defined (n : Nat) : ∀ (i : Nat) (a : List Cell), i + n ≤ a.length →
    ∃ b, free_loop n i a = some b ∧ b.length = a.length := by
  induction n with
  | zero => intro i a _; exact ⟨a, rfl, rfl⟩
  | succ k ih =>
    intro i a h
    have hi : i < a.length := by omega
    obtain ⟨b, hb, hlen⟩ := ih (i + 1) (a.set i Cell.junk) (by simp; omega)
    refine ⟨b, ?_, by simpa using hlen⟩
    simp only [free_loop, load, List.get?_eq_getElem?, List.getElem?_eq_getElem hi]
    exact hb

/-- Function `clear_token` on a sequence whose count is within its capacity gives the
state `new_tokens` returns. -/
theorem clear_token_eq (s : tokens) (h : s.size ≤ s.elements.length) :
    clear_token s = some new_tokens := by
  obtain ⟨b, hb, _⟩ := free_loop_defined s.size 0 s.elements (by simpa using h)
  have hr : ∃ x, realloc b 1 = [x] := by
    match b with
    | [] => exact ⟨Cell.junk, rfl⟩
    | x :: l => exact ⟨x, by simp [realloc]⟩
  obtain ⟨x, hx⟩ := hr
  simp only [clear_token, hb, hx]
  rfl

theorem Holds_size_le {s : tokens} {ts : List (List Char)} (h : Holds s ts) :
    s.size ≤ s.elements.length := by
  have h2 := congrArg List.length h.2
  have h1 := h.1
  simp at h2
  omega

theorem cstr_of_IsCString {l : List Char} (h : IsCString l) : cstr l = l := by
  unfold cstr
  rw [List.takeWhile_eq_self_iff]
  intro c hc
  have : c ≠ NUL := fun e => h (e ▸ hc)
  simp [this]

/-- Adding the strings `ts` one by one to a sequence that holds `pre` and ends
with the sentinel. -/
theorem run_add_all (ts : List (List Char)) : ∀ (pre : List (List Char)),
    (∀ t ∈ ts, IsCString t) →
    run_calls ⟨pre.map Cell.str ++ [Cell.null], pre.length⟩ (ts.map Call.add_token)
      = some ⟨(pre ++ ts).map Cell.str ++ [Cell.null], (pre ++ ts).length⟩ := by
  induction ts with
  | nil => intro pre _; simp [run_calls]
  | cons t l ih =>
    intro pre h
    have ht : cstr t = t := cstr_of_IsCString (h t (by simp))
    have e := add_token_eq ⟨pre.map Cell.str ++ [Cell.null], pre.length⟩ t (by simp)
    simp only [ht] at e
    have e2 : List.take pre.length (pre.map Cell.str ++ [Cell.null]) = pre.map Cell.str := by
      rw [List.take_append_of_le_length (by simp)]
      simp
    rw [e2] at e
    have e3 := ih (pre ++ [t]) (fun x hx => h x (by simp [hx]))
    simp only [List.map_cons, run_calls, call, e]
    simpa using e3

/-! ## Properties of the reference splitter -/

theorem wordsAux_append_space (a b : List Char) : ∀ (cur : List Char),
    wordsAux (a ++ ' ' :: b) cur = wordsAux a cur ++ wordsAux b [] := by
  induction a with
  | nil =>
    intro cur
    by_cases h : cur = [] <;> simp [wordsAux, h]
  | cons c l ih =>
    intro cur
    by_cases hc : c = ' '
    · by_cases h : cur = [] <;> simp [wordsAux, hc, h, ih]
    · simp [wordsAux, hc, ih]

theorem wordsAux_join (l : List Char) : ∀ (cur : List Char),
    (wordsAux l cur).flatten = cur ++ l.filter (fun c => c != ' ') := by
  induction l with
  | nil =>
    intro cur
    by_cases h : cur = [] <;> simp [wordsAux, h]
  | cons c cs ih =>
    intro cur
    by_cases hc : c = ' '
    · by_cases h : cur = [] <;> simp [wordsAux, hc, h, ih]
    · simp [wordsAux, hc, ih]

theorem wordsAux_mem (l : List Char) : ∀ (cur : List Char), (∀ c ∈ cur, c ≠ ' ') →
    ∀ w ∈ wordsAux l cur, w ≠ [] ∧ ' ' ∉ w := by
  induction l with
  | nil =>
    intro cur hcur w hw
    by_cases h : cur = []
    · simp [wordsAux, h] at hw
    · simp [wordsAux, h] at hw
      subst hw
      exact ⟨h, fun hm => hcur _ hm rfl⟩
  | cons c cs ih =>
    intro cur hcur w hw
    by_cases hc : c = ' '
    · by_cases h : cur = []
      · simp [wordsAux, hc, h] at hw
        exact ih [] (by simp) w hw
      · simp [wordsAux, hc, h] at hw
        rcases hw with hw | hw
        · subst hw
          exact ⟨h, fun hm => hcur _ hm rfl⟩
        · exact ih [] (by simp) w hw
    · simp [wordsAux, hc] at hw
      refine ih (cur ++ [c]) ?_ w hw
      intro d hd
      rcases List.mem_append.mp hd with hd | hd
      · exact hcur d hd
      · simp at hd
        rw [hd]; exact hc

theorem words_spaces (j : Nat) : words (spaces j) = [] := by
  have := words_spaces_append j []
  simp only [List.append_nil] at this
  rw [this]
  rfl

theorem words_tok_run (w : List Char) (hw : ∀ c ∈ w, c ≠ ' ') (hne : w ≠ []) (g : Nat)
    (r : List Char) : words (w ++ spaces (g + 1) ++ r) = w :: words r := by
  have : w ++ spaces (g + 1) ++ r = w ++ ' ' :: (spaces g ++ r) := by
    simp [spaces, List.replicate_succ]
  rw [this, words_tok_space w hw hne, words_spaces_append]

theorem words_tok_trail (w : List Char) (hw : ∀ c ∈ w, c ≠ ' ') (hne : w ≠ []) (k : Nat) :
    words (w ++ spaces k) = [w] := by
  cases k with
  | zero => simpa [spaces] using words_tok_end w hw hne
  | succ n =>
    have := words_tok_run w hw hne n []
    simp only [List.append_nil] at this
    rw [this]
    rfl

theorem words_joinWords (trail : Nat) (ws : List (List Char × Nat)) :
    (∀ p ∈ ws, p.1 ≠ [] ∧ TokChars p.1) →
    words (joinWords ws ++ spaces trail) = ws.map Prod.fst := by
  induction ws with
  | nil => intro _; simpa [joinWords] using words_spaces trail
  | cons p rest ih =>
    intro h
    obtain ⟨w, g⟩ := p
    have hp := h (w, g) (by simp)
    have hsp : ∀ c ∈ w, c ≠ ' ' := fun c hc => (hp.2 c hc).1
    cases rest with
    | nil => simpa [joinWords] using words_tok_trail w hsp hp.1 trail
    | cons q rest2 =>
      have ih2 := ih (fun x hx => h x (by simp [hx]))
      have e : joinWords ((w, g) :: q :: rest2) ++ spaces trail
          = w ++ spaces (g + 1) ++ (joinWords (q :: rest2) ++ spaces trail) := by
        simp [joinWords]
      rw [e, words_tok_run w hsp hp.1, ih2]
      simp

theorem IsCString_spaces (j : Nat) : IsCString (spaces j) := by
  intro h
  exact space_ne_NUL (mem_spaces h).symm

theorem IsCString_append {a b : List Char} (ha : IsCString a) (hb : IsCString b) :
    IsCString (a ++ b) := by
  intro h
  rcases List.mem_append.mp h with h | h
  · exact ha h
  · exact hb h

theorem IsCString_of_TokChars {w : List Char} (h : TokChars w) : IsCString w :=
  fun hm => (h NUL hm).2 rfl

theorem IsCString_joinWords (ws : List (List Char × Nat)) :
    (∀ p ∈ ws, p.1 ≠ [] ∧ TokChars p.1) → IsCString (joinWords ws) := by
  induction ws with
  | nil => intro _; simp [joinWords, IsCString]
  | cons p rest ih =>
    intro h
    obtain ⟨w, g⟩ := p
    have hw : IsCString w := IsCString_of_TokChars (h (w, g) (by simp)).2
    cases rest with
    | nil => simpa [joinWords] using hw
    | cons q rest2 =>
      have ih2 := ih (fun x hx => h x (by simp [hx]))
      have e : joinWords ((w, g) :: q :: rest2)
          = w ++ spaces (g + 1) ++ joinWords (q :: rest2) := by simp [joinWords]
      rw [e]
      exact IsCString_append (IsCString_append hw (IsCString_spaces _)) ih2

theorem cstr_append_of_IsCString {a : List Char} (ha : IsCString a) (b : List Char) :
    cstr (a ++ b) = a ++ cstr b := by
  unfold cstr
  rw [List.takeWhile_append_of_pos]
  intro c hc
  have : c ≠ NUL := fun e => ha (e ▸ hc)
  simp [this]

/-! ## The tokenizer: the claims on `parse` -/

/-- C1: for every list of non-empty words without a space (and, being C strings,
without NUL), `parse` on the line made of those words separated by runs of one or
more spaces, with `lead` spaces before and `trail` spaces after, returns a
sequence whose size is the number of words and whose cells are exactly those
words, in order, followed by the sentinel; in particular "ls -l /tmp" gives
["ls", "-l", "/tmp"] and the empty line gives the empty sequence. -/
theorem parse_spaced_words (lead trail : Nat) (ws : List (List Char × Nat))
    (hw : ∀ p ∈ ws, p.1 ≠ [] ∧ TokChars p.1) :
    (∃ m, parse (spaces lead ++ joinWords ws ++ spaces trail)
        = some (⟨(ws.map Prod.fst).map Cell.str ++ [Cell.null], ws.length⟩, m)) ∧
    (∃ m, parse "ls -l /tmp".toList
        = some (⟨[Cell.str "ls".toList, Cell.str "-l".toList, Cell.str "/tmp".toList,
            Cell.null], 3⟩, m)) ∧
    (∃ m, parse [] = some (⟨[Cell.null], 0⟩, m)) := by
  refine ⟨⟨mark false (spaces lead ++ joinWords ws ++ spaces trail), ?_⟩,
    ⟨mark false "ls -l /tmp".toList, by decide⟩, ⟨[], by decide⟩⟩
  rw [parse_eq]
  have hc : IsCString (spaces lead ++ joinWords ws ++ spaces trail) :=
    IsCString_append (IsCString_append (IsCString_spaces _) (IsCString_joinWords ws hw))
      (IsCString_spaces _)
  have hwd : words (spaces lead ++ joinWords ws ++ spaces trail) = ws.map Prod.fst := by
    rw [List.append_assoc, words_spaces_append, words_joinWords trail ws hw]
  rw [cstr_of_IsCString hc, hwd]
  simp

/-- Witness of C1 on the line " ls -l   /tmp  ". -/
theorem parse_spaced_words_witness :
    (∀ p ∈ [("ls".toList, 0), ("-l".toList, 2), ("/tmp".toList, 0)],
        p.1 ≠ [] ∧ TokChars p.1) ∧
    ∃ m, parse " ls -l   /tmp  ".toList
      = some (⟨[Cell.str "ls".toList, Cell.str "-l".toList, Cell.str "/tmp".toList,
          Cell.null], 3⟩, m) :=
  ⟨by decide,
    (parse_spaced_words 1 2 [("ls".toList, 0), ("-l".toList, 2), ("/tmp".toList, 0)]
      (by decide)).1⟩

/-- C2, as stated, fails: the line made of one tab consists only of whitespace,
yet `parse` returns one token, the tab itself. -/
theorem parse_tab_line_counterexample :
    (∀ c ∈ [TAB], c ∈ whitespace) ∧
      parse [TAB] = some (⟨[Cell.str [TAB], Cell.null], 1⟩, [TAB]) := by
  decide

/-- C2, amended: for every line that consists only of space characters, in any
number, `parse` returns the empty token sequence (size 0, only the sentinel) and
leaves the line as it was. -/
theorem parse_only_spaces (line : List Char) (h : ∀ c ∈ line, c = ' ') :
    parse line = some (⟨[Cell.null], 0⟩, line) := by
  have hl : line = spaces line.length := by
    unfold spaces
    exact List.eq_replicate_iff.mpr ⟨rfl, h⟩
  rw [parse_eq, hl]
  have h1 : cstr (spaces line.length) = spaces line.length :=
    cstr_of_IsCString (IsCString_spaces _)
  have h2 : mark false (spaces line.length) = spaces line.length := by
    have := mark_spaces_append line.length []
    simpa [mark] using this
  rw [h1, words_spaces, h2]
  rfl

/-- Witness of the amended C2 on a line of three spaces. -/
theorem parse_only_spaces_witness :
    (∀ c ∈ [' ', ' ', ' '], c = ' ') ∧
      parse [' ', ' ', ' '] = some (⟨[Cell.null], 0⟩, [' ', ' ', ' ']) :=
  ⟨by decide, parse_only_spaces [' ', ' ', ' '] (by decide)⟩

/-- C8: for every input buffer, `parse` returns a sequence that holds strings
`ws` such that every one of them is non-empty and has no space, and their
concatenation, in order, is the line (the C string of the buffer) with its spaces
removed. -/
theorem parse_tokens_concat (input : List Char) :
    ∃ t m ws, parse input = some (t, m) ∧ Holds t ws ∧
      (∀ w ∈ ws, w ≠ [] ∧ ' ' ∉ w) ∧
      ws.flatten = (cstr input).filter (fun c => c != ' ') := by
  refine ⟨_, _, words (cstr input), parse_eq input, ⟨rfl, ?_⟩, ?_, ?_⟩
  · show List.take (words (cstr input)).length
        (List.map Cell.str (words (cstr input)) ++ [Cell.null]) = _
    rw [List.take_append_of_le_length (by simp)]
    simp
  · exact wordsAux_mem (cstr input) [] (by simp)
  · simpa [words] using wordsAux_join (cstr input) []

/-- C9: for every line `a` (a C string) and every `b`, the token sequence of `a`
followed by one space followed by `b` is the token sequence of `a` followed by
the token sequence of `b`: the sizes add and the tokens keep their order. -/
theorem parse_append_space (a b : List Char) (ha : IsCString a) :
    ∃ ta ma tb mb tab mab, parse a = some (ta, ma) ∧ parse b = some (tb, mb) ∧
      parse (a ++ ' ' :: b) = some (tab, mab) ∧
      tab.size = ta.size + tb.size ∧
      tab.elements.take tab.size = ta.elements.take ta.size ++ tb.elements.take tb.size := by
  have hw : words (cstr (a ++ ' ' :: b)) = words (cstr a) ++ words (cstr b) := by
    rw [cstr_append_of_IsCString ha, cstr_space_cons, cstr_of_IsCString ha]
    exact wordsAux_append_space a (cstr b) []
  have htake : ∀ l : List (List Char),
      List.take l.length (List.map Cell.str l ++ [Cell.null]) = List.map Cell.str l := by
    intro l
    rw [List.take_append_of_le_length (by simp)]
    simp
  refine ⟨_, _, _, _, _, _, parse_eq a, parse_eq b, parse_eq _, ?_, ?_⟩
  · simp [hw]
  · show List.take (words (cstr (a ++ ' ' :: b))).length
        (List.map Cell.str (words (cstr (a ++ ' ' :: b))) ++ [Cell.null]) =
      List.take (words (cstr a)).length (List.map Cell.str (words (cstr a)) ++ [Cell.null]) ++
      List.take (words (cstr b)).length (List.map Cell.str (words (cstr b)) ++ [Cell.null])
    rw [htake, htake, htake, hw]
    simp

/-- Witness of C9 on "ls  -l" and " /tmp". -/
theorem parse_append_space_witness :
    IsCString "ls  -l".toList ∧
    ∃ ta ma tb mb tab mab, parse "ls  -l".toList = some (ta, ma) ∧
      parse " /tmp".toList = some (tb, mb) ∧
      parse ("ls  -l".toList ++ ' ' :: " /tmp".toList) = some (tab, mab) ∧
      tab.size = ta.size + tb.size ∧
      tab.elements.take tab.size = ta.elements.take ta.size ++ tb.elements.take tb.size :=
  ⟨by decide, parse_append_space "ls  -l".toList " /tmp".toList (by decide)⟩

/-! ## The token sequence: `add_token`, `clear_token` and the invariants -/

theorem argv_ok_size_lt {s : tokens} (h : argv_ok s) : s.size < s.elements.length := by
  have h2 := h.2
  rw [List.get?_eq_getElem?] at h2
  exact (List.getElem?_eq_some_iff.mp h2).1

theorem argv_ok_new_tokens : argv_ok new_tokens := by
  refine ⟨?_, rfl⟩
  intro i hi
  exact absurd hi (Nat.not_lt_zero i)

theorem argv_ok_words (ws : List (List Char)) :
    argv_ok ⟨ws.map Cell.str ++ [Cell.null], ws.length⟩ := by
  constructor
  · intro i hi
    refine ⟨ws.get ⟨i, hi⟩, ?_⟩
    show (List.map Cell.str ws ++ [Cell.null]).get? i = _
    rw [List.get?_eq_getElem?, List.getElem?_append_left (by simpa using hi)]
    simp [List.getElem?_eq_getElem hi]
  · show (List.map Cell.str ws ++ [Cell.null]).get? ws.length = _
    rw [List.get?_eq_getElem?, List.getElem?_append_right (by simp)]
    simp

theorem call_argv_ok (s : tokens) (c : Call) (h : argv_ok s) :
    ∃ s1, call s c = some s1 ∧ argv_ok s1 := by
  have hlt := argv_ok_size_lt h
  cases c with
  | clear_token =>
    exact ⟨new_tokens, clear_token_eq s (Nat.le_of_lt hlt), argv_ok_new_tokens⟩
  | add_token input =>
    refine ⟨_, add_token_eq s input (Nat.le_of_lt hlt), ?_, ?_⟩
    · intro i hi
      have hl : (s.elements.take s.size).length = s.size := by
        simp [Nat.le_of_lt hlt]
      show ∃ w, (List.take s.size s.elements ++ [Cell.str (cstr input), Cell.null]).get? i
        = some (Cell.str w)
      by_cases hi2 : i < s.size
      · obtain ⟨w, hw⟩ := h.1 i hi2
        refine ⟨w, ?_⟩
        rw [List.get?_eq_getElem?, List.getElem?_append_left (by omega),
          List.getElem?_take_of_lt hi2, ← List.get?_eq_getElem?]
        exact hw
      · have hi3 : i = s.size := by
          have : i < s.size + 1 := hi
          omega
        refine ⟨cstr input, ?_⟩
        rw [List.get?_eq_getElem?, List.getElem?_append_right (by omega), hl, hi3]
        simp
    · have hl : (s.elements.take s.size).length = s.size := by
        simp [Nat.le_of_lt hlt]
      show (List.take s.size s.elements ++ [Cell.str (cstr input), Cell.null]).get?
        (s.size + 1) = _
      rw [List.get?_eq_getElem?, List.getElem?_append_right (by omega), hl]
      simp

theorem run_calls_argv_ok (calls : List Call) : ∀ (s : tokens), argv_ok s →
    ∃ s1, run_calls s calls = some s1 ∧ argv_ok s1 := by
  induction calls with
  | nil => intro s h; exact ⟨s, rfl, h⟩
  | cons c cs ih =>
    intro s h
    obtain ⟨s1, h1, h2⟩ := call_argv_ok s c h
    obtain ⟨s2, h3, h4⟩ := ih s1 h2
    exact ⟨s2, by simp [run_calls, h1, h3], h4⟩

theorem call_cap_ok (s : tokens) (c : Call) (h : cap_ok s) :
    ∃ s1, call s c = some s1 ∧ cap_ok s1 := by
  have hle : s.size ≤ s.elements.length := Nat.le_of_succ_le h
  cases c with
  | clear_token => exact ⟨new_tokens, clear_token_eq s hle, by decide⟩
  | add_token input =>
    refine ⟨_, add_token_eq s input hle, ?_⟩
    simp [cap_ok, hle]

theorem run_calls_cap_ok (calls : List Call) : ∀ (s : tokens), cap_ok s →
    ∃ s1, run_calls s calls = some s1 ∧ cap_ok s1 := by
  induction calls with
  | nil => intro s h; exact ⟨s, rfl, h⟩
  | cons c cs ih =>
    intro s h
    obtain ⟨s1, h1, h2⟩ := call_cap_ok s c h
    obtain ⟨s2, h3, h4⟩ := ih s1 h2
    exact ⟨s2, by simp [run_calls, h1, h3], h4⟩

/-- C3: for every sequence `s` holding the strings `ts` and every C string `t`
(spaces and operator characters included), `add_token s t` is defined and leaves
a sequence holding `ts` followed by `t`: the size is one more, the last token is
`t` itself, in one piece, the earlier tokens are the same in the same order, and
the sentinel follows. -/
theorem add_token_appends (s : tokens) (ts : List (List Char)) (t : List Char)
    (hs : Holds s ts) (ht : IsCString t) :
    ∃ s1, add_token s t = some s1 ∧ s1.size = ts.length + 1 ∧ Holds s1 (ts ++ [t]) ∧
      s1.elements = ts.map Cell.str ++ [Cell.str t, Cell.null] := by
  refine ⟨_, add_token_eq s t (Holds_size_le hs), ?_, ?_, ?_⟩
  · simp [hs.1]
  · constructor
    · simp [hs.1]
    · show List.take (s.size + 1) (List.take s.size s.elements ++ [Cell.str (cstr t), Cell.null])
        = _
      rw [hs.2, cstr_of_IsCString ht, hs.1]
      have : List.map Cell.str ts ++ [Cell.str t, Cell.null]
          = List.map Cell.str (ts ++ [t]) ++ [Cell.null] := by simp
      rw [this, List.take_append_of_le_length (by simp)]
      simp
  · show List.take s.size s.elements ++ [Cell.str (cstr t), Cell.null] = _
    rw [hs.2, cstr_of_IsCString ht]

/-- Witness of C3: adding "a b|c" to the sequence of "ls -l". -/
theorem add_token_appends_witness :
    Holds ⟨[Cell.str "ls".toList, Cell.str "-l".toList, Cell.null], 2⟩
        ["ls".toList, "-l".toList] ∧ IsCString "a b|c".toList ∧
    ∃ s1, add_token ⟨[Cell.str "ls".toList, Cell.str "-l".toList, Cell.null], 2⟩
          "a b|c".toList = some s1 ∧ s1.size = 2 + 1 ∧
      Holds s1 (["ls".toList, "-l".toList] ++ ["a b|c".toList]) ∧
      s1.elements = ["ls".toList, "-l".toList].map Cell.str
        ++ [Cell.str "a b|c".toList, Cell.null] :=
  ⟨by decide, by decide,
    add_token_appends ⟨[Cell.str "ls".toList, Cell.str "-l".toList, Cell.null], 2⟩
      ["ls".toList, "-l".toList] "a b|c".toList (by decide) (by decide)⟩

/-- C4: for every sequence `s` (holding some strings `old`), `clear_token s` is
defined and leaves exactly the state `new_tokens` returns (size 0, no token);
and for every list `ts` of C strings, adding them in order to the cleared
sequence gives a sequence that holds exactly `ts` followed by the sentinel, so
none of `old` is left. -/
theorem clear_token_reusable (s : tokens) (old ts : List (List Char))
    (hs : Holds s old) (hts : ∀ t ∈ ts, IsCString t) :
    ∃ c, clear_token s = some c ∧ c = new_tokens ∧ Holds c [] ∧
      ∃ s1, run_calls c (ts.map Call.add_token) = some s1 ∧ Holds s1 ts ∧
        s1.elements = ts.map Cell.str ++ [Cell.null] := by
  refine ⟨new_tokens, clear_token_eq s (Holds_size_le hs), rfl, by decide, ?_⟩
  have h := run_add_all ts [] hts
  simp only [List.map_nil, List.nil_append, List.length_nil] at h
  refine ⟨_, h, ⟨rfl, ?_⟩, rfl⟩
  show List.take ts.length (List.map Cell.str ts ++ [Cell.null]) = _
  rw [List.take_append_of_le_length (by simp)]
  simp

/-- Witness of C4: clearing the sequence of "ls -l" and adding "pwd". -/
theorem clear_token_reusable_witness :
    Holds ⟨[Cell.str "ls".toList, Cell.str "-l".toList, Cell.null], 2⟩
        ["ls".toList, "-l".toList] ∧ (∀ t ∈ ["pwd".toList], IsCString t) ∧
    ∃ c, clear_token ⟨[Cell.str "ls".toList, Cell.str "-l".toList, Cell.null], 2⟩ = some c ∧
      c = new_tokens ∧ Holds c [] ∧
      ∃ s1, run_calls c (["pwd".toList].map Call.add_token) = some s1 ∧
        Holds s1 ["pwd".toList] ∧ s1.elements = ["pwd".toList].map Cell.str ++ [Cell.null] :=
  ⟨by decide, by decide,
    clear_token_reusable ⟨[Cell.str "ls".toList, Cell.str "-l".toList, Cell.null], 2⟩
      ["ls".toList, "-l".toList] ["pwd".toList] (by decide) (by decide)⟩

/-- C5: every sequence reached from `new_tokens`, or from `parse` on any line, by
any finite series of `add_token` and `clear_token` calls exists (each call is
defined) and is a `NULL`-terminated argument vector of exactly `size` arguments:
the cells `0 .. size-1` are strings and the cell at `size` is `NULL`. -/
theorem argv_invariant (line : List Char) (calls : List Call) :
    (∃ s, run_calls new_tokens calls = some s ∧ argv_ok s) ∧
    (∃ t m s, parse line = some (t, m) ∧ run_calls t calls = some s ∧ argv_ok s) := by
  constructor
  · exact run_calls_argv_ok calls new_tokens argv_ok_new_tokens
  · obtain ⟨s, h1, h2⟩ := run_calls_argv_ok calls _ (argv_ok_words (words (cstr line)))
    exact ⟨_, _, s, parse_eq line, h1, h2⟩

/-- C10: with the array modelled together with its capacity and every access
bounds checked, `new_tokens` returns with capacity at least `size + 1`; `parse`
is defined on every line (none of its writes is out of bounds) and returns with
capacity at least `size + 1`; and from every sequence with capacity at least
`size + 1`, every series of `add_token` and `clear_token` calls is defined (no
access is out of bounds) and ends with capacity at least `size + 1`. -/
theorem capacity_invariant (line : List Char) (s : tokens) (calls : List Call) :
    cap_ok new_tokens ∧
    (∃ t m, parse line = some (t, m) ∧ cap_ok t) ∧
    (cap_ok s → ∃ s1, run_calls s calls = some s1 ∧ cap_ok s1) := by
  refine ⟨by decide, ⟨_, _, parse_eq line, ?_⟩, run_calls_cap_ok calls s⟩
  simp [cap_ok]

/-- Witness of C10: a sequence with two tokens in an array of five cells, then
`add_token`, `clear_token`, `add_token`. -/
theorem capacity_invariant_witness :
    cap_ok ⟨[Cell.str ['a'], Cell.str ['b'], Cell.null, Cell.junk, Cell.junk], 2⟩ ∧
    ∃ s1, run_calls ⟨[Cell.str ['a'], Cell.str ['b'], Cell.null, Cell.junk, Cell.junk], 2⟩
        [Call.add_token ['c'], Call.clear_token, Call.add_token ['d']] = some s1 ∧
      cap_ok s1 :=
  ⟨by decide,
    (capacity_invariant [] ⟨[Cell.str ['a'], Cell.str ['b'], Cell.null, Cell.junk, Cell.junk], 2⟩
      [Call.add_token ['c'], Call.clear_token, Call.add_token ['d']]).2.2 (by decide)⟩

/-! ## The effect of `parse` on the caller's buffer -/

theorem mark_length (l : List Char) : ∀ (b : Bool), (mark b l).length = l.length := by
  induction l with
  | nil => intro b; rfl
  | cons c cs ih =>
    intro b
    by_cases h1 : c = NUL
    · simp [mark, h1]
    · by_cases h2 : c = ' '
      · simp [mark, h1, h2, space_ne_NUL, ih]
      · simp [mark, h1, h2, ih]

theorem cstr_cons_NUL (cs : List Char) : cstr (NUL :: cs) = [] := by simp [cstr]

theorem cstr_cons_ne {c : Char} (h : c ≠ NUL) (cs : List Char) :
    cstr (c :: cs) = c :: cstr cs := by simp [cstr, h]

theorem rd_cons_zero (c : Char) (cs : List Char) : rd (c :: cs) 0 = c := by simp [rd]

theorem rd_cons_succ (c : Char) (cs : List Char) (k : Nat) : rd (c :: cs) (k + 1) = rd cs k := by
  simp [rd]

/-- The buffer `mark b l` read at index `i`: NUL where `l` holds, inside its C
string, a space whose predecessor is not a space (for index 0, where `b` says
so), the character of `l` elsewhere. -/
theorem rd_mark (l : List Char) : ∀ (b : Bool) (i : Nat),
    rd (mark b l) i =
      if i < (cstr l).length ∧ rd l i = ' ' ∧ (if i = 0 then b = true else rd l (i - 1) ≠ ' ')
      then NUL else rd l i := by
  induction l with
  | nil => intro b i; simp [mark, cstr]
  | cons c cs ih =>
    intro b i
    by_cases h1 : c = NUL
    · subst h1
      simp [mark, cstr_cons_NUL]
    · by_cases h2 : c = ' '
      · subst h2
        cases i with
        | zero =>
          cases b <;> simp [mark, space_ne_NUL, cstr_cons_ne space_ne_NUL, rd_cons_zero]
        | succ k =>
          simp only [mark, space_ne_NUL, if_false, if_true, rd_cons_succ, ih false k,
            cstr_cons_ne space_ne_NUL, List.length_cons, Nat.add_lt_add_iff_right,
            Nat.add_sub_cancel]
          cases k with
          | zero => simp [rd_cons_zero]
          | succ j => simp [rd_cons_succ]
      · cases i with
        | zero => simp [mark, h1, h2, cstr_cons_ne h1, rd_cons_zero]
        | succ k =>
          simp only [mark, h1, h2, if_false, rd_cons_succ, ih true k,
            cstr_cons_ne h1, List.length_cons, Nat.add_lt_add_iff_right,
            Nat.add_sub_cancel]
          cases k with
          | zero => simp [rd_cons_zero, h2]
          | succ j => simp [rd_cons_succ]

/-- C6, as stated, fails: after `parse` on the buffer "ls -l" the buffer holds
"ls", NUL, "-l": the space was overwritten. -/
theorem parse_buffer_counterexample :
    ∃ t m, parse "ls -l".toList = some (t, m) ∧ m = ['l', 's', NUL, '-', 'l'] ∧
      m ≠ "ls -l".toList :=
  ⟨_, _, rfl, by decide, by decide⟩

/-- C6, amended: `parse` is defined on every buffer and leaves it with the same
length; at every index the buffer holds the character it held before, except
that NUL is written over every space of the line (the C string of the buffer)
that directly follows a character other than a space, i.e. over the first space
after each token. The statement is about the caller's buffer only: it says
nothing on other effects of the call, such as the position `strtok` saves
between calls. -/
theorem parse_buffer_effect (input : List Char) :
    ∃ t m, parse input = some (t, m) ∧ m.length = input.length ∧
      ∀ i, rd m i =
        if i < (cstr input).length ∧ rd input i = ' ' ∧ 0 < i ∧ rd input (i - 1) ≠ ' '
        then NUL else rd input i := by
  refine ⟨_, _, parse_eq input, mark_length input false, ?_⟩
  intro i
  rw [rd_mark input false i]
  cases i with
  | zero => simp
  | succ k => simp

/-! ## The control flow of `command_runner` -/

theorem proceeds_iff (op : Operator) (status : Int) :
    proceeds (some op) status = true ↔ short_circuit op status := by
  cases op <;> simp [proceeds, short_circuit]

/-- The statements executed by a run that starts with `st`. -/
theorem command_runner_cons {σ α : Type} (exec : σ → α → σ × Int) (error : Bool) (w : σ)
    (st : Statement α) (rest : List (Statement α)) :
    (command_runner exec error w (st :: rest)).2 =
      (st.pipeline, (exec w st.pipeline).2) ::
        (if ¬ (error = true ∧ (exec w st.pipeline).2 ≠ 0) ∧
            proceeds st.follow (exec w st.pipeline).2 = true
          then (command_runner exec error (exec w st.pipeline).1 rest).2 else []) := by
  rw [command_runner]
  by_cases h1 : error = true ∧ (exec w st.pipeline).2 ≠ 0
  · have : (error && (exec w st.pipeline).2 != 0) = true := by simp [h1.1, h1.2]
    simp [this, h1]
  · have : (error && (exec w st.pipeline).2 != 0) = false := by
      by_cases he : error = true
      · have : (exec w st.pipeline).2 = 0 := by
          by_contra hne
          exact h1 ⟨he, hne⟩
        simp [this]
      · simp [he]
    by_cases h2 : proceeds st.follow (exec w st.pipeline).2 = true
    · simp [this, h1, h2]
    · simp [this, h1, h2]

theorem command_runner_pairs {σ α : Type} (exec : σ → α → σ × Int) (error : Bool) :
    ∀ (i : Nat) (w : σ) (stmts : List (Statement α)) (A : α) (op : Operator)
      (B : Statement α) (sA : Int),
      stmts.get? i = some ⟨A, some op⟩ → stmts.get? (i + 1) = some B →
      (command_runner exec error w stmts).2.get? i = some (A, sA) →
      ((∃ sB, (command_runner exec error w stmts).2.get? (i + 1) = some (B.pipeline, sB))
        ↔ (short_circuit op sA ∧ ¬ (error = true ∧ sA ≠ 0))) := by
  intro i
  induction i with
  | zero =>
    intro w stmts A op B sA hA hB hrun
    match stmts, hA, hB with
    | st :: B2 :: rest, hA, hB =>
      simp only [List.get?_cons_zero, Option.some.injEq] at hA
      simp only [List.get?_cons_succ, List.get?_cons_zero, Option.some.injEq] at hB
      subst hA
      subst hB
      rw [command_runner_cons] at hrun ⊢
      simp only [List.get?_cons_zero, Option.some.injEq, Prod.mk.injEq, true_and] at hrun
      simp only [List.get?_cons_succ]
      rw [hrun]
      by_cases hc : ¬ (error = true ∧ sA ≠ 0) ∧ proceeds (some op) sA = true
      · rw [if_pos hc, command_runner_cons]
        simp only [List.get?_cons_zero, Option.some.injEq, Prod.mk.injEq, true_and,
          exists_eq', true_iff]
        exact ⟨(proceeds_iff op sA).mp hc.2, hc.1⟩
      · rw [if_neg hc]
        simp only [List.get?_nil, exists_false, false_iff, reduceCtorEq]
        intro h
        exact hc ⟨h.2, (proceeds_iff op sA).mpr h.1⟩
  | succ k ih =>
    intro w stmts A op B sA hA hB hrun
    match stmts, hA, hB with
    | st :: rest, hA, hB =>
      simp only [List.get?_cons_succ] at hA hB
      rw [command_runner_cons] at hrun ⊢
      simp only [List.get?_cons_succ] at hrun ⊢
      by_cases hc : ¬ (error = true ∧ (exec w st.pipeline).2 ≠ 0) ∧
          proceeds st.follow (exec w st.pipeline).2 = true
      · rw [if_pos hc] at hrun ⊢
        exact ih _ rest A op B sA hA hB hrun
      · rw [if_neg hc] at hrun
        simp at hrun

/-- C7, as stated, fails: in the mode that stops at the first non-zero status
(`error` set), "false || echo hi" executes `false` with status 1 and nothing else,
although the operator is `||` and the status is non-zero. -/
theorem command_runner_hard_stop_counterexample :
    (command_runner exec_cmd true ()
        [⟨Cmd.cmd_false, some Operator.OR⟩, ⟨Cmd.cmd_echo_hi, none⟩]).2 = [(Cmd.cmd_false, 1)] ∧
    short_circuit Operator.OR 1 ∧
    ¬ ShortCircuitRule exec_cmd true ()
        [⟨Cmd.cmd_false, some Operator.OR⟩, ⟨Cmd.cmd_echo_hi, none⟩] := by
  have hsc : short_circuit Operator.OR 1 := Or.inr (Or.inr ⟨rfl, by decide⟩)
  refine ⟨rfl, hsc, ?_⟩
  intro h
  have h2 := (h 0 Cmd.cmd_false Operator.OR ⟨Cmd.cmd_echo_hi, none⟩ 1 rfl rfl rfl).mpr hsc
  obtain ⟨sB, hsB⟩ := h2
  have h3 : (command_runner exec_cmd true ()
      [⟨Cmd.cmd_false, some Operator.OR⟩, ⟨Cmd.cmd_echo_hi, none⟩]).2 = [(Cmd.cmd_false, 1)] := rfl
  rw [h3] at hsB
  simp at hsB

/-- C7, amended: for every pair of consecutive statements `A op B` of a run of
`command_runner` in which `A` was executed with status `sA`, `B` is executed if
and only if the short-circuit condition holds ((`op` is `;`) or (`op` is `&&` and
`sA` is zero) or (`op` is `||` and `sA` is non-zero)) and the run is not stopped
by the `error` mode (`error` set and `sA` non-zero); in every mode
"false && echo hi" executes only `false` and returns its non-zero status, and
"true || echo hi" executes only `true` and returns zero. -/
theorem command_runner_short_circuit {σ α : Type} (exec : σ → α → σ × Int) (error : Bool)
    (w : σ) (stmts : List (Statement α)) (i : Nat) (A : α) (op : Operator)
    (B : Statement α) (sA : Int)
    (hA : stmts.get? i = some ⟨A, some op⟩) (hB : stmts.get? (i + 1) = some B)
    (hrun : (command_runner exec error w stmts).2.get? i = some (A, sA)) :
    ((∃ sB, (command_runner exec error w stmts).2.get? (i + 1) = some (B.pipeline, sB))
      ↔ (short_circuit op sA ∧ ¬ (error = true ∧ sA ≠ 0))) ∧
    (∀ F E : α, (exec w F).2 ≠ 0 →
      (command_runner exec error w [⟨F, some Operator.AND⟩, ⟨E, none⟩]).2
          = [(F, (exec w F).2)] ∧
        returned_status (command_runner exec error w [⟨F, some Operator.AND⟩, ⟨E, none⟩]).2
          = (exec w F).2) ∧
    (∀ T E : α, (exec w T).2 = 0 →
      (command_runner exec error w [⟨T, some Operator.OR⟩, ⟨E, none⟩]).2 = [(T, 0)] ∧
        returned_status (command_runner exec error w [⟨T, some Operator.OR⟩, ⟨E, none⟩]).2
          = 0) := by
  refine ⟨command_runner_pairs exec error i w stmts A op B sA hA hB hrun, ?_, ?_⟩
  · intro F E hF
    have e : (command_runner exec error w [⟨F, some Operator.AND⟩, ⟨E, none⟩]).2
        = [(F, (exec w F).2)] := by
      rw [command_runner_cons]
      simp [proceeds, hF]
    rw [e]
    exact ⟨rfl, rfl⟩
  · intro T E hT
    have e : (command_runner exec error w [⟨T, some Operator.OR⟩, ⟨E, none⟩]).2
        = [(T, 0)] := by
      rw [command_runner_cons]
      simp [proceeds, hT]
    rw [e]
    exact ⟨rfl, rfl⟩

/-- Witness of the amended C7 on "false || echo hi" without the `error` mode:
`echo hi` is executed. -/
theorem command_runner_short_circuit_witness :
    ((∃ sB, (command_runner exec_cmd false ()
        [⟨Cmd.cmd_false, some Operator.OR⟩, ⟨Cmd.cmd_echo_hi, none⟩]).2.get? (0 + 1)
          = some (Cmd.cmd_echo_hi, sB))
      ↔ (short_circuit Operator.OR 1 ∧ ¬ (false = true ∧ (1 : Int) ≠ 0))) :=
  (command_runner_short_circuit exec_cmd false ()
    [⟨Cmd.cmd_false, some Operator.OR⟩, ⟨Cmd.cmd_echo_hi, none⟩] 0 Cmd.cmd_false Operator.OR
    ⟨Cmd.cmd_echo_hi, none⟩ 1 rfl rfl rfl).1

end Tesh
